import Mathlib

/-!
Verification of the nc-vip-dmv core (scheduler, dedup store, subscription
store, notification fan-out) against its natural-language specification.

The Python source is shallowly embedded: dictionaries become association
lists preserving insertion order, `time.time()` timestamps become integers,
and the asyncio iteration becomes an explicit event-trace semantics whose
atomic blocks are exactly the code regions between `await` points.
-/

namespace NCVipDmv

/-- Association-list lookup modelling Python `dict.get(k)` / `d[k]` reads:
the value at the first matching key, `none` when the key is absent. -/
def dictGet {α : Type} (m : List (String × α)) (k : String) : Option α :=
  match m with
  | [] => none
  | (k', v) :: rest => if k' = k then some v else dictGet rest k

/-- Association-list update modelling Python `d[k] = v`: replaces the value
at the first matching key, appends a new binding at the end when the key is
absent (Python dicts preserve insertion order). -/
def dictSet {α : Type} (m : List (String × α)) (k : String) (v : α) : List (String × α) :=
  match m with
  | [] => [(k, v)]
  | (k', v') :: rest => if k' = k then (k, v) :: rest else (k', v') :: dictSet rest k v

theorem dictGet_dictSet_self {α : Type} (m : List (String × α)) (k : String) (v : α) :
    dictGet (dictSet m k v) k = some v := by
  induction m with
  | nil => simp [dictGet, dictSet]
  | cons hd tl ih =>
    obtain ⟨k', v'⟩ := hd
    by_cases h : k' = k
    · simp [dictGet, dictSet, h]
    · simp [dictGet, dictSet, h, ih]

theorem dictGet_dictSet_ne {α : Type} (m : List (String × α)) (k k' : String) (v : α)
    (h : k' ≠ k) : dictGet (dictSet m k v) k' = dictGet m k' := by
  have h2 : k ≠ k' := Ne.symm h
  induction m with
  | nil => simp [dictGet, dictSet, h2]
  | cons hd tl ih =>
    obtain ⟨k₀, v₀⟩ := hd
    by_cases h₀ : k₀ = k
    · subst h₀
      simp [dictGet, dictSet, h2]
    · simp only [dictSet, if_neg h₀]
      by_cases h₁ : k₀ = k'
      · simp [dictGet, h₁]
      · simp [dictGet, h₁, ih]

theorem dictGet_mem {α : Type} {m : List (String × α)} {k : String} {v : α}
    (h : dictGet m k = some v) : (k, v) ∈ m := by
  induction m with
  | nil => simp [dictGet] at h
  | cons hd tl ih =>
    obtain ⟨k', v'⟩ := hd
    by_cases h' : k' = k
    · subst h'
      simp [dictGet] at h
      simp [h]
    · simp [dictGet, h'] at h
      exact List.mem_cons_of_mem _ (ih h)

/-- In an association list whose keys are distinct, any two bindings of the
same key carry the same value. -/
theorem mem_unique_of_nodup_keys {α : Type} {m : List (String × α)} {k : String} {v v' : α}
    (hnd : (m.map Prod.fst).Nodup) (h : (k, v) ∈ m) (h' : (k, v') ∈ m) : v = v' := by
  induction m with
  | nil => simp at h
  | cons hd tl ih =>
    simp only [List.map_cons, List.nodup_cons] at hnd
    rcases List.mem_cons.mp h with h1 | h1
    · rcases List.mem_cons.mp h' with h2 | h2
      · rw [← h1] at h2
        exact (Prod.mk.injEq _ _ _ _ ▸ h2.symm).2
      · exfalso
        apply hnd.1
        have : hd.1 = k := by rw [← h1]
        rw [this]
        exact List.mem_map_of_mem Prod.fst h2
    · rcases List.mem_cons.mp h' with h2 | h2
      · exfalso
        apply hnd.1
        have : hd.1 = k := by rw [← h2]
        rw [this]
        exact List.mem_map_of_mem Prod.fst h1
      · exact ih hnd.2 h1 h2

/-- Keys of `dictSet`: unchanged when the key was already bound, the new key
appended at the end otherwise. -/
theorem map_fst_dictSet {α : Type} (m : List (String × α)) (k : String) (v : α) :
    (dictSet m k v).map Prod.fst =
      if k ∈ m.map Prod.fst then m.map Prod.fst else m.map Prod.fst ++ [k] := by
  induction m with
  | nil => simp [dictSet]
  | cons hd tl ih =>
    obtain ⟨k', v'⟩ := hd
    by_cases h : k' = k
    · subst h
      simp [dictSet]
    · simp only [dictSet, if_neg h, List.map_cons]
      rw [ih]
      have h2 : ¬k = k' := fun h' => h h'.symm
      by_cases hk : k ∈ tl.map Prod.fst
      · simp [hk, h2]
      · simp [hk, h2]

theorem nodup_keys_dictSet {α : Type} {m : List (String × α)} (k : String) (v : α)
    (hnd : (m.map Prod.fst).Nodup) : ((dictSet m k v).map Prod.fst).Nodup := by
  rw [map_fst_dictSet]
  by_cases hk : k ∈ m.map Prod.fst
  · simpa [hk]
  · simp only [hk, if_false]
    rw [List.nodup_append]
    refine ⟨hnd, List.nodup_singleton k, ?_⟩
    intro a ha hb
    simp only [List.mem_singleton] at hb
    subst hb
    exact hk ha

theorem mem_dictSet {α : Type} {m : List (String × α)} {k : String} {v : α} {e : String × α}
    (h : e ∈ dictSet m k v) : e = (k, v) ∨ e ∈ m := by
  induction m with
  | nil =>
    simp only [dictSet, List.mem_singleton] at h
    exact Or.inl h
  | cons hd tl ih =>
    obtain ⟨k', v'⟩ := hd
    simp only [dictSet] at h
    by_cases h' : k' = k
    · rw [if_pos h'] at h
      rcases List.mem_cons.mp h with h1 | h1
      · exact Or.inl h1
      · exact Or.inr (List.mem_cons_of_mem _ h1)
    · rw [if_neg h'] at h
      rcases List.mem_cons.mp h with h1 | h1
      · exact Or.inr (h1 ▸ List.mem_cons_self _ _)
      · rcases ih h1 with h2 | h2
        · exact Or.inl h2
        · exact Or.inr (List.mem_cons_of_mem _ h2)

/-! ## Dedup Store (`src/nc_vip_dmv/core/state.py`, class `StateStore`)

`_data` is `{"seen": {office_name: {signature: last_time}}}`; the in-memory
value after a successful constructor run with a well-formed file is captured
by `seen`, persistence (`_save`) is the identity on the in-memory state.
`time.time()` values are modelled as integers. -/

structure StateStore where
  ttl_seconds : Int
  seen : List (String × List (String × Int))
deriving DecidableEq

/-- Constructor path of `StateStore.__init__` when the persisted file is
missing or fails to parse: `ttl_seconds = ttl_hours * 3600` and
`_data = {"seen": {}}`. -/
def StateStore.init (ttl_hours : Int) : StateStore :=
  { ttl_seconds := ttl_hours * 3600, seen := [] }

/-- `StateStore.purge_expired`: for every office keep exactly the signatures
with `now - ts <= ttl_seconds`, dropping offices whose filtered dict is
empty, preserving insertion order. -/
def StateStore.purge_expired (st : StateStore) (now : Int) : StateStore :=
  { st with
    seen := st.seen.filterMap (fun entry =>
      let filtered := entry.2.filter (fun p => now - p.2 ≤ st.ttl_seconds)
      if filtered.isEmpty then none else some (entry.1, filtered)) }

/-- `StateStore.was_seen`: `sigs = self._data["seen"].get(office_name, {})`;
`return signature in sigs`.  Membership only — the timestamp is not
compared against the TTL. -/
def StateStore.was_seen (st : StateStore) (office_name signature : String) : Bool :=
  let sigs := (dictGet st.seen office_name).getD []
  (dictGet sigs signature).isSome

/-- `StateStore.mark_seen`: `setdefault(office_name, {})` then
`sigs[signature] = now`, then a synchronous save. -/
def StateStore.mark_seen (st : StateStore) (office_name signature : String) (now : Int) :
    StateStore :=
  let sigs := (dictGet st.seen office_name).getD []
  { st with seen := dictSet st.seen office_name (dictSet sigs signature now) }

/-- The timestamp recorded for a `(office, key)` pair, if any; `was_seen` is
exactly `(entryTs ..).isSome`. -/
def StateStore.entryTs (st : StateStore) (office_name signature : String) : Option Int :=
  dictGet ((dictGet st.seen office_name).getD []) signature

/-- Well-formedness that every store reachable from Python dicts satisfies:
office keys are distinct and, per office, signature keys are distinct. -/
def StateStore.WF (st : StateStore) : Prop :=
  (st.seen.map Prod.fst).Nodup ∧ ∀ e ∈ st.seen, (e.2.map Prod.fst).Nodup

instance (st : StateStore) : Decidable st.WF := by
  unfold StateStore.WF
  infer_instance

theorem was_seen_eq_entryTs (st : StateStore) (o k : String) :
    st.was_seen o k = (st.entryTs o k).isSome := rfl

theorem entryTs_mark_seen_self (st : StateStore) (o k : String) (t : Int) :
    (st.mark_seen o k t).entryTs o k = some t := by
  unfold StateStore.mark_seen StateStore.entryTs
  simp [dictGet_dictSet_self]

theorem entryTs_mark_seen_ne (st : StateStore) (o k o' k' : String) (t : Int)
    (h : ¬(o' = o ∧ k' = k)) :
    (st.mark_seen o' k' t).entryTs o k = st.entryTs o k := by
  unfold StateStore.mark_seen StateStore.entryTs
  by_cases ho : o = o'
  · subst ho
    have hk : k ≠ k' := fun hk => h ⟨rfl, hk.symm⟩
    simp [dictGet_dictSet_self, dictGet_dictSet_ne _ _ _ _ hk]
  · simp [dictGet_dictSet_ne _ _ _ _ ho]

theorem ttl_mark_seen (st : StateStore) (o k : String) (t : Int) :
    (st.mark_seen o k t).ttl_seconds = st.ttl_seconds := rfl

theorem WF_mark_seen {st : StateStore} (o k : String) (t : Int) (h : st.WF) :
    (st.mark_seen o k t).WF := by
  obtain ⟨h1, h2⟩ := h
  constructor
  · exact nodup_keys_dictSet _ _ h1
  · intro e he
    rcases mem_dictSet he with he | he
    · subst he
      apply nodup_keys_dictSet
      cases hg : dictGet st.seen o with
      | none => simp [hg]
      | some sigs =>
        simp only [hg, Option.getD_some]
        exact h2 _ (dictGet_mem hg)
    · exact h2 _ he

/-- After a purge at time `now`, a key whose recorded timestamp `ts` has
`now - ts > ttl` is gone (for well-formed stores). -/
theorem was_seen_purge_expired_false {st : StateStore} {o k : String} {ts now : Int}
    (hWF : st.WF) (hts : st.entryTs o k = some ts) (hexp : now - ts > st.ttl_seconds) :
    (st.purge_expired now).was_seen o k = false := by
  unfold StateStore.entryTs at hts
  unfold StateStore.was_seen StateStore.purge_expired
  set f : String × List (String × Int) → Option (String × List (String × Int)) :=
    fun entry =>
      let filtered := entry.2.filter (fun p => now - p.2 ≤ st.ttl_seconds)
      if filtered.isEmpty then none else some (entry.1, filtered) with hf
  cases hg : dictGet st.seen o with
  | none => simp [hg, dictGet] at hts
  | some sigs =>
    simp only [hg, Option.getD_some] at hts
    -- the unique binding of key `k` under office `o` has timestamp `ts`
    have hmem : (o, sigs) ∈ st.seen := dictGet_mem hg
    have hsigs_nd : (sigs.map Prod.fst).Nodup := hWF.2 _ hmem
    have hkts : (k, ts) ∈ sigs := dictGet_mem hts
    -- whatever the purged map binds `o` to contains no binding for `k`
    cases hg' : dictGet ((st.seen.filterMap f)) o with
    | none => simp [hg', dictGet]
    | some sigs' =>
      simp only [hg', Option.getD_some]
      cases hk' : dictGet sigs' k with
      | none => simp
      | some ts' =>
        exfalso
        have hmem' : (o, sigs') ∈ st.seen.filterMap f := dictGet_mem hg'
        obtain ⟨⟨o₀, sigs₀⟩, hmem₀, heq₀⟩ := List.mem_filterMap.mp hmem'
        have hne : ¬(sigs₀.filter (fun p => now - p.2 ≤ st.ttl_seconds)).isEmpty := by
          intro hemp
          simp only [hf, hemp, if_true] at heq₀
          exact Option.noConfusion heq₀
        have heq₂ : (o₀, sigs₀.filter (fun p => now - p.2 ≤ st.ttl_seconds)) = (o, sigs') :=
          Option.some.inj (by simpa [hf, if_neg hne] using heq₀)
        have ho₀ : o₀ = o := congrArg Prod.fst heq₂
        have hfil : (sigs₀.filter (fun p => now - p.2 ≤ st.ttl_seconds)) = sigs' :=
          congrArg Prod.snd heq₂
        subst ho₀
        -- `sigs₀` is the same list as `sigs` by outer key uniqueness
        have : sigs₀ = sigs :=
          mem_unique_of_nodup_keys hWF.1 hmem₀ hmem
        subst this
        -- so `(k, ts')` survived the filter, but every `k`-binding is `(k, ts)`
        have hk'mem : (k, ts') ∈ sigs' := dictGet_mem hk'
        rw [← hfil] at hk'mem
        have hk'mem' := List.mem_filter.mp hk'mem
        have : ts' = ts := mem_unique_of_nodup_keys hsigs_nd hk'mem'.1 hkts
        subst this
        have := hk'mem'.2
        simp at this
        omega

/-- A list of further `mark_seen` calls `(office, key, time)`, applied in
order. -/
def StateStore.applyMarks (st : StateStore) : List (String × String × Int) → StateStore
  | [] => st
  | (o, k, t) :: rest => (st.mark_seen o k t).applyMarks rest

theorem entryTs_applyMarks_ne (st : StateStore) (o k : String)
    (ops : List (String × String × Int)) (hops : ∀ p ∈ ops, ¬(p.1 = o ∧ p.2.1 = k)) :
    (st.applyMarks ops).entryTs o k = st.entryTs o k := by
  induction ops generalizing st with
  | nil => rfl
  | cons hd tl ih =>
    obtain ⟨o', k', t'⟩ := hd
    have h1 : ¬(o' = o ∧ k' = k) := hops _ (List.mem_cons_self _ _)
    simp only [StateStore.applyMarks]
    rw [ih _ (fun p hp => hops p (List.mem_cons_of_mem _ hp))]
    exact entryTs_mark_seen_ne st o k o' k' t' h1

theorem was_seen_applyMarks_mono (st : StateStore) (o k : String)
    (ops : List (String × String × Int)) (h : st.was_seen o k = true) :
    (st.applyMarks ops).was_seen o k = true := by
  induction ops generalizing st with
  | nil => exact h
  | cons hd tl ih =>
    obtain ⟨o', k', t'⟩ := hd
    simp only [StateStore.applyMarks]
    apply ih
    by_cases hsame : o' = o ∧ k' = k
    · obtain ⟨ho, hk⟩ := hsame
      subst ho; subst hk
      rw [was_seen_eq_entryTs, entryTs_mark_seen_self]
      rfl
    · rw [was_seen_eq_entryTs, entryTs_mark_seen_ne st o k o' k' t' hsame,
        ← was_seen_eq_entryTs]
      exact h

theorem WF_applyMarks {st : StateStore} (ops : List (String × String × Int)) (h : st.WF) :
    (st.applyMarks ops).WF := by
  induction ops generalizing st with
  | nil => exact h
  | cons hd tl ih =>
    obtain ⟨o, k, t⟩ := hd
    exact ih (WF_mark_seen o k t h)

theorem ttl_applyMarks (st : StateStore) (ops : List (String × String × Int)) :
    (st.applyMarks ops).ttl_seconds = st.ttl_seconds := by
  induction ops generalizing st with
  | nil => rfl
  | cons hd tl ih =>
    obtain ⟨o, k, t⟩ := hd
    exact ih _

/-! ## Claims C2 and C4: dedup-store semantics -/

/-- C2 counterexample: in `StateStore` with `ttl_hours = 1` (`ttl_seconds =
3600`), a key marked at time `0` has age `1000000 > 3600` when queried at
time `1000000` — its Seen Entry is expired — yet `was_seen` still returns
`true`, because `was_seen` tests only membership, never the timestamp.
This refutes the claim that `wasSeen` returns false for any entry whose age
exceeds the TTL when `purgeExpired` has not run. -/
theorem wasSeen_expired_counterexample :
    ((StateStore.init 1).mark_seen "Raleigh" "Mon 1/2 9:00 AM" 0).entryTs
        "Raleigh" "Mon 1/2 9:00 AM" = some 0
    ∧ (1000000 : Int) - 0 >
        ((StateStore.init 1).mark_seen "Raleigh" "Mon 1/2 9:00 AM" 0).ttl_seconds
    ∧ ((StateStore.init 1).mark_seen "Raleigh" "Mon 1/2 9:00 AM" 0).was_seen
        "Raleigh" "Mon 1/2 9:00 AM" = true := by
  decide

/-- C2 (amended): `wasSeen(office, key)` returns true iff an entry exists for
that exact key under that office, whether or not its age exceeds the TTL;
an expired entry stops matching only once `purgeExpired` removes it.  Here:
an entry with timestamp `ts` that is expired at time `now` still answers
`true` before the purge and answers `false` after a purge run at `now`. -/
theorem wasSeen_membership_only (st : StateStore) (o k : String) (ts now : Int)
    (hWF : st.WF) (hts : st.entryTs o k = some ts) (hexp : now - ts > st.ttl_seconds) :
    st.was_seen o k = true ∧ (st.purge_expired now).was_seen o k = false := by
  constructor
  · rw [was_seen_eq_entryTs, hts]
    rfl
  · exact was_seen_purge_expired_false hWF hts hexp

theorem wasSeen_membership_only_witness :
    ((StateStore.init 1).mark_seen "o" "k" 0).was_seen "o" "k" = true
    ∧ (((StateStore.init 1).mark_seen "o" "k" 0).purge_expired 100000).was_seen "o" "k"
        = false :=
  wasSeen_membership_only ((StateStore.init 1).mark_seen "o" "k" 0) "o" "k" 0 100000
    (by decide) (by decide) (by decide)

/-- C4: if `markSeen(office, key)` runs at time `t` and, after any further
`mark_seen` calls that never touch `(office, key)` (no intervening removal),
`wasSeen` is queried at `t' ≤ t + TTL`, it returns true; and after a
`purgeExpired` run at `t' > t + TTL` it returns false. -/
theorem markSeen_ttl_roundtrip (st : StateStore) (o k : String) (t t' : Int)
    (ops : List (String × String × Int)) (hWF : st.WF)
    (hops : ∀ p ∈ ops, ¬(p.1 = o ∧ p.2.1 = k)) :
    (t' ≤ t + st.ttl_seconds →
      ((st.mark_seen o k t).applyMarks ops).was_seen o k = true)
    ∧ (t' > t + st.ttl_seconds →
      (((st.mark_seen o k t).applyMarks ops).purge_expired t').was_seen o k = false) := by
  constructor
  · intro _
    apply was_seen_applyMarks_mono
    rw [was_seen_eq_entryTs, entryTs_mark_seen_self]
    rfl
  · intro h
    have hWF' : ((st.mark_seen o k t).applyMarks ops).WF :=
      WF_applyMarks ops (WF_mark_seen o k t hWF)
    have hts : ((st.mark_seen o k t).applyMarks ops).entryTs o k = some t := by
      rw [entryTs_applyMarks_ne (st.mark_seen o k t) o k ops hops, entryTs_mark_seen_self]
    have httl : ((st.mark_seen o k t).applyMarks ops).ttl_seconds = st.ttl_seconds := by
      rw [ttl_applyMarks, ttl_mark_seen]
    apply was_seen_purge_expired_false hWF' hts
    rw [httl]
    omega

theorem markSeen_ttl_roundtrip_witness :
    (((StateStore.init 12).mark_seen "Cary" "sig" 0).applyMarks
        [("Cary", "other", 50)]).was_seen "Cary" "sig" = true
    ∧ ((((StateStore.init 12).mark_seen "Cary" "sig" 0).applyMarks
        [("Cary", "other", 50)]).purge_expired 100000).was_seen "Cary" "sig" = false := by
  have h1 := markSeen_ttl_roundtrip (StateStore.init 12) "Cary" "sig" 0 100
    [("Cary", "other", 50)] (by decide) (by decide)
  have h2 := markSeen_ttl_roundtrip (StateStore.init 12) "Cary" "sig" 0 100000
    [("Cary", "other", 50)] (by decide) (by decide)
  exact ⟨h1.1 (by decide), h2.2 (by decide)⟩

/-! ## Code-point string order, modelling Python string comparison

Python `sorted` compares strings lexicographically by code point.  Core
Lean's `String.lt` does not reduce under `decide`, so the same order is
defined here directly on the character lists. -/

def charListLt : List Char → List Char → Bool
  | [], [] => false
  | [], _ :: _ => true
  | _ :: _, [] => false
  | a :: as, b :: bs => if a < b then true else if b < a then false else charListLt as bs

def strLt (a b : String) : Bool := charListLt a.data b.data

theorem charListLt_irrefl (l : List Char) : charListLt l l = false := by
  induction l with
  | nil => rfl
  | cons a as ih => simp [charListLt, lt_irrefl, ih]

theorem charListLt_trans {a b c : List Char} (hab : charListLt a b = true)
    (hbc : charListLt b c = true) : charListLt a c = true := by
  induction a generalizing b c with
  | nil =>
    cases b with
    | nil => simp [charListLt] at hab
    | cons y ys =>
      cases c with
      | nil => simp [charListLt] at hbc
      | cons z zs => simp [charListLt]
  | cons x xs ih =>
    cases b with
    | nil => simp [charListLt] at hab
    | cons y ys =>
      cases c with
      | nil => simp [charListLt] at hbc
      | cons z zs =>
        simp only [charListLt] at hab hbc ⊢
        by_cases hxy : x < y
        · by_cases hyz : y < z
          · simp [lt_trans hxy hyz]
          · by_cases hzy : z < y
            · simp [hyz, hzy] at hbc
            · have : y = z := le_antisymm (not_lt.mp hzy) (not_lt.mp hyz)
              subst this
              simp [hxy]
        · by_cases hyx : y < x
          · simp [hxy, hyx] at hab
          · have hxey : x = y := le_antisymm (not_lt.mp hyx) (not_lt.mp hxy)
            subst hxey
            simp only [hxy, if_false, hyx, if_false] at hab
            by_cases hyz : x < z
            · simp [hyz]
            · by_cases hzy : z < x
              · simp [hyz, hzy] at hbc
              · simp only [hyz, if_false, hzy, if_false] at hbc ⊢
                exact ih hab hbc

theorem charListLt_asymm {a b : List Char} (h : charListLt a b = true) :
    charListLt b a = false := by
  by_contra h'
  have h2 : charListLt b a = true := by
    cases hba : charListLt b a with
    | false => exact absurd hba h'
    | true => rfl
  have := charListLt_trans h h2
  rw [charListLt_irrefl] at this
  exact Bool.noConfusion this

theorem charListLt_conn {a b : List Char} (hab : charListLt a b = false)
    (hba : charListLt b a = false) : a = b := by
  induction a generalizing b with
  | nil =>
    cases b with
    | nil => rfl
    | cons y ys => simp [charListLt] at hab
  | cons x xs ih =>
    cases b with
    | nil => simp [charListLt] at hba
    | cons y ys =>
      simp only [charListLt] at hab hba
      by_cases hxy : x < y
      · simp [hxy] at hab
      · by_cases hyx : y < x
        · simp [hyx, hxy] at hba
        · have hxey : x = y := le_antisymm (not_lt.mp hyx) (not_lt.mp hxy)
          subst hxey
          simp only [hxy, if_false, lt_irrefl] at hab hba
          rw [ih hab hba]

theorem strLt_asymm {a b : String} (h : strLt a b = true) : strLt b a = false :=
  charListLt_asymm h

theorem strLt_conn {a b : String} (hab : strLt a b = false) (hba : strLt b a = false) :
    a = b :=
  String.ext (charListLt_conn hab hba)

/-! ## Subscription Store (`src/nc_vip_dmv/core/subscriptions.py`) -/

/-- Insertion into a code-point-sorted list; `insertionSort` composed with
`List.dedup` computes Python's `sorted(set(xs))`. -/
def insertSorted (s : String) : List String → List String
  | [] => [s]
  | t :: ts => if strLt s t then s :: t :: ts else t :: insertSorted s ts

def insertionSort (xs : List String) : List String := xs.foldr insertSorted []

/-- Python `sorted(set(offices))` from `set_subscription`. -/
def sortedDedup (xs : List String) : List String := insertionSort xs.dedup

theorem perm_insertSorted (s : String) (l : List String) :
    (insertSorted s l).Perm (s :: l) := by
  induction l with
  | nil => simp [insertSorted]
  | cons t ts ih =>
    by_cases h : strLt s t
    · simp [insertSorted, h]
    · simp only [insertSorted, if_neg h]
      exact (ih.cons t).trans (List.Perm.swap s t ts)

theorem perm_insertionSort (xs : List String) : (insertionSort xs).Perm xs := by
  induction xs with
  | nil => simp [insertionSort]
  | cons x xs ih =>
    simp only [insertionSort, List.foldr_cons]
    exact (perm_insertSorted x _).trans (ih.cons x)

theorem sorted_insertSorted (s : String) {l : List String}
    (h : l.Sorted (fun a b => strLt b a = false)) :
    (insertSorted s l).Sorted (fun a b => strLt b a = false) := by
  induction l with
  | nil => simp [insertSorted]
  | cons t ts ih =>
    rw [List.sorted_cons] at h
    obtain ⟨ht, hts⟩ := h
    by_cases hst : strLt s t
    · simp only [insertSorted, if_pos hst]
      rw [List.sorted_cons]
      refine ⟨?_, by rw [List.sorted_cons]; exact ⟨ht, hts⟩⟩
      intro b hb
      rcases List.mem_cons.mp hb with hb | hb
      · subst hb
        exact strLt_asymm hst
      · cases hbs : strLt b s with
        | false => rfl
        | true =>
          exfalso
          have : strLt b t = true := charListLt_trans hbs hst
          rw [ht b hb] at this
          exact Bool.noConfusion this
    · simp only [insertSorted, if_neg hst]
      rw [List.sorted_cons]
      refine ⟨?_, ih hts⟩
      intro b hb
      have : b = s ∨ b ∈ ts := by
        have := (perm_insertSorted s ts).mem_iff.mp hb
        simpa using this
      rcases this with hb | hb
      · subst hb
        exact Bool.of_not_eq_true hst
      · exact ht b hb

theorem sorted_insertionSort (xs : List String) :
    (insertionSort xs).Sorted (fun a b => strLt b a = false) := by
  induction xs with
  | nil => simp [insertionSort]
  | cons x xs ih =>
    simp only [insertionSort, List.foldr_cons]
    exact sorted_insertSorted x ih

theorem sortedDedup_perm_invariant {l l' : List String} (h : l.Perm l') :
    sortedDedup l = sortedDedup l' := by
  have hanti : IsAntisymm String (fun a b => strLt b a = false) :=
    ⟨fun _ _ hab hba => strLt_conn hba hab⟩
  have hp : (insertionSort l.dedup).Perm (insertionSort l'.dedup) :=
    (perm_insertionSort _).trans (h.dedup.trans (perm_insertionSort _).symm)
  exact @List.eq_of_perm_of_sorted _ _ hanti _ _ hp
    (sorted_insertionSort _) (sorted_insertionSort _)

theorem sortedDedup_nodup (l : List String) : (sortedDedup l).Nodup :=
  (perm_insertionSort l.dedup).symm.nodup (List.nodup_dedup l)

/-- `SubscriptionsStore._data`: `{email: [office, ...]}`, write-through
persistence modelled as the identity on the in-memory mapping. -/
structure SubscriptionsStore where
  data : List (String × List String)
deriving DecidableEq

/-- `SubscriptionsStore.get_offices_for`: `self._data.get(email, [])`. -/
def SubscriptionsStore.get_offices_for (st : SubscriptionsStore) (email : String) :
    List String :=
  (dictGet st.data email).getD []

/-- `SubscriptionsStore.set_subscription`:
`self._data[email] = sorted(set(offices))` followed by a synchronous save. -/
def SubscriptionsStore.set_subscription (st : SubscriptionsStore) (email : String)
    (offices : List String) : SubscriptionsStore :=
  { data := dictSet st.data email (sortedDedup offices) }

theorem get_offices_for_set_subscription (st : SubscriptionsStore) (e : String)
    (l : List String) :
    (st.set_subscription e l).get_offices_for e = sortedDedup l := by
  unfold SubscriptionsStore.set_subscription SubscriptionsStore.get_offices_for
  simp [dictGet_dictSet_self]

/-- C7: `setSubscription` stores a de-duplicated, order-independent set and
fully replaces any prior set for that email: the stored value depends only
on the multiset of offices passed (not on the prior state), duplicates are
collapsed, the spec's two concrete examples hold, and a second call is a
full overwrite rather than a union. -/
theorem setSubscription_replaces (st : SubscriptionsStore) (e : String) :
    ((st.set_subscription e ["Raleigh", "Raleigh", "Durham"]).get_offices_for e
        = ["Durham", "Raleigh"])
    ∧ (((st.set_subscription e ["Raleigh", "Raleigh", "Durham"]).set_subscription e
          ["Durham"]).get_offices_for e = ["Durham"])
    ∧ (∀ l, (st.set_subscription e l).get_offices_for e = sortedDedup l)
    ∧ (∀ l, ((st.set_subscription e l).get_offices_for e).Nodup)
    ∧ (∀ l l', l.Perm l' → st.set_subscription e l = st.set_subscription e l') := by
  refine ⟨?_, ?_, ?_, ?_, ?_⟩
  · rw [get_offices_for_set_subscription]
    decide
  · rw [get_offices_for_set_subscription]
    decide
  · exact get_offices_for_set_subscription st e
  · intro l
    rw [get_offices_for_set_subscription]
    exact sortedDedup_nodup l
  · intro l l' h
    unfold SubscriptionsStore.set_subscription
    rw [sortedDedup_perm_invariant h]

theorem setSubscription_replaces_witness :
    ((SubscriptionsStore.mk []).set_subscription "a@x.com"
        ["Raleigh", "Raleigh", "Durham"]).get_offices_for "a@x.com" = ["Durham", "Raleigh"]
    ∧ (SubscriptionsStore.mk []).set_subscription "a@x.com" ["Durham", "Raleigh"]
        = (SubscriptionsStore.mk []).set_subscription "a@x.com" ["Raleigh", "Durham"] := by
  have h := setSubscription_replaces (SubscriptionsStore.mk []) "a@x.com"
  exact ⟨h.1, h.2.2.2.2 _ _ (by decide)⟩

/-! ## Claims C8 and C10: load behaviour of `StateStore` (`state.py`)

`_load` is modelled at the JSON level: `json.load` may yield any JSON value,
and `was_seen` / `mark_seen` index `self._data["seen"]` without any shape
validation, so Python dict errors must be represented explicitly. -/

/-- JSON values as produced by `json.load`; numeric values restricted to the
integral timestamps this store ever writes. -/
inductive Json where
  | null
  | bool (b : Bool)
  | num (n : Int)
  | str (s : String)
  | arr (items : List Json)
  | obj (fields : List (String × Json))

/-- The three situations `StateStore._load` distinguishes: no file, a file
`json.load` raises on, and a successfully parsed JSON value. -/
inductive FileContent where
  | missing
  | unparseable
  | parsed (j : Json)

/-- `StateStore._load` (with the constructor's initial value): a parsed file
is taken as `_data` verbatim — no shape validation — while a missing or
unparseable file falls back to `{"seen": {}}`. -/
def stateLoad : FileContent → Json
  | .missing => .obj [("seen", .obj [])]
  | .unparseable => .obj [("seen", .obj [])]
  | .parsed j => j

/-- Python runtime errors reachable from `was_seen` / `mark_seen`:
`KeyError` from `d[k]` with an absent key, `TypeError` from indexing a
non-dict, `AttributeError` from calling dict methods on a non-dict. -/
inductive PyError where
  | keyError
  | typeError
  | attrError
deriving DecidableEq

/-- Python `value.get(..)/.setdefault(..)/membership` on a JSON value:
usable only when the value is a dict. -/
def jsonAsObj : Json → Except PyError (List (String × Json))
  | .obj fields => Except.ok fields
  | _ => Except.error PyError.attrError

/-- `StateStore.was_seen` over the raw loaded `_data`:
`sigs = self._data["seen"].get(office_name, {}); return signature in sigs`. -/
def was_seen_j (data : Json) (office_name signature : String) : Except PyError Bool :=
  match data with
  | .obj dataFields =>
    match dictGet dataFields "seen" with
    | none => Except.error PyError.keyError
    | some seenJ => do
      let seenFields ← jsonAsObj seenJ
      let sigsJ := (dictGet seenFields office_name).getD (.obj [])
      let sigsFields ← jsonAsObj sigsJ
      pure (dictGet sigsFields signature).isSome
  | _ => Except.error PyError.typeError

/-- `StateStore.mark_seen` over the raw loaded `_data`:
`sigs = self._data["seen"].setdefault(office_name, {}); sigs[signature] = now`;
the in-place mutation of the nested dicts is written back functionally. -/
def mark_seen_j (data : Json) (office_name signature : String) (now : Int) :
    Except PyError Json :=
  match data with
  | .obj dataFields =>
    match dictGet dataFields "seen" with
    | none => Except.error PyError.keyError
    | some seenJ => do
      let seenFields ← jsonAsObj seenJ
      let sigsJ := (dictGet seenFields office_name).getD (.obj [])
      let sigsFields ← jsonAsObj sigsJ
      let newSigs := Json.obj (dictSet sigsFields signature (.num now))
      pure (Json.obj (dictSet dataFields "seen"
        (Json.obj (dictSet seenFields office_name newSigs))))
  | _ => Except.error PyError.typeError

/-- C8: when the persisted file is missing or cannot be parsed, construction
loads an empty store (`{"seen": {}}`) without raising, and `markSeen` /
`wasSeen` then behave normally: on the fresh store every `wasSeen` is
`ok false`, and a `markSeen` succeeds and makes the marked key report
`ok true`. -/
theorem load_fails_open (fc : FileContent) (h : fc = .missing ∨ fc = .unparseable)
    (o s : String) (now : Int) :
    stateLoad fc = Json.obj [("seen", Json.obj [])]
    ∧ was_seen_j (stateLoad fc) o s = Except.ok false
    ∧ mark_seen_j (stateLoad fc) o s now =
        Except.ok (Json.obj [("seen", Json.obj [(o, Json.obj [(s, Json.num now)])])])
    ∧ was_seen_j (Json.obj [("seen", Json.obj [(o, Json.obj [(s, Json.num now)])])]) o s
        = Except.ok true := by
  have hload : stateLoad fc = Json.obj [("seen", Json.obj [])] := by
    rcases h with h | h <;> simp [h, stateLoad]
  refine ⟨hload, ?_, ?_, ?_⟩
  · rw [hload]
    simp [was_seen_j, dictGet, jsonAsObj, bind, Except.bind, pure, Except.pure]
  · rw [hload]
    simp [mark_seen_j, dictGet, dictSet, jsonAsObj, bind, Except.bind, pure, Except.pure]
  · simp [was_seen_j, dictGet, jsonAsObj, bind, Except.bind, pure, Except.pure]

theorem load_fails_open_witness :
    stateLoad FileContent.unparseable = Json.obj [("seen", Json.obj [])]
    ∧ was_seen_j (stateLoad FileContent.unparseable) "Raleigh" "sig" = Except.ok false
    ∧ mark_seen_j (stateLoad FileContent.unparseable) "Raleigh" "sig" 7 =
        Except.ok (Json.obj
          [("seen", Json.obj [("Raleigh", Json.obj [("sig", Json.num 7)])])])
    ∧ was_seen_j
        (Json.obj [("seen", Json.obj [("Raleigh", Json.obj [("sig", Json.num 7)])])])
        "Raleigh" "sig" = Except.ok true :=
  load_fails_open FileContent.unparseable (Or.inr rfl) "Raleigh" "sig" 7

/-- C10: `_load` accepts any successfully parsed JSON value verbatim, with no
shape validation; for the valid JSON object `{}` (no `"seen"` key) the
constructor succeeds, but every subsequent `was_seen` or `mark_seen` call
raises `KeyError` at `self._data["seen"]`. -/
theorem load_no_validation_keyError :
    (∀ j : Json, stateLoad (.parsed j) = j)
    ∧ (∀ o s : String, was_seen_j (Json.obj []) o s = Except.error PyError.keyError)
    ∧ (∀ (o s : String) (now : Int),
        mark_seen_j (Json.obj []) o s now = Except.error PyError.keyError) := by
  refine ⟨fun _ => rfl, fun o s => ?_, fun o s now => ?_⟩
  · simp [was_seen_j, dictGet]
  · simp [mark_seen_j, dictGet]

/-! ## Notification fan-out (`scheduler.py`, `Scheduler._handle_result`) -/

/-- Detached notification tasks created with `asyncio.create_task`. -/
inductive NotifyTask where
  | discord (office : String) (url : Option String) (sig : String)
  | sms (office : String) (url : Option String) (sig : String)
  | email (to_email : String) (office : String) (url : Option String) (sig : String)
deriving DecidableEq

/-- Configuration and environment as the scheduler sees them: static config
flags, each notifier's `is_configured()` result (environment credentials),
the optionally attached subscriptions store, and the test-recipient env
values after `.strip()` (empty string when unset). -/
structure NotifCfg where
  notifications_enabled : Bool
  discord_enabled : Bool
  discord_configured : Bool
  sms_enabled : Bool
  sms_configured : Bool
  sms_test_to_number : String
  email_enabled : Bool
  email_configured : Bool
  email_test_to : String
  subs_attached : Bool
  subs_data : List (String × List String)
deriving DecidableEq

/-- `Scheduler._get_subscribed_emails`: the emails whose subscription office
list contains this office, `[]` when no subscriptions store is attached. -/
def get_subscribed_emails (cfg : NotifCfg) (office_name : String) : List String :=
  if cfg.subs_attached then
    (cfg.subs_data.filter (fun e => office_name ∈ e.2)).map Prod.fst
  else []

/-- Dedup key used by the Discord (broadcast) block: the raw signature. -/
def discordKey (sig : String) : String := sig

/-- Dedup key used by the SMS (single-recipient) block: `f"SMS|{sig}"`. -/
def smsKey (sig : String) : String := "SMS|" ++ sig

/-- Dedup key used by the email (multi-recipient) block:
`f"EMAIL|{to_email}|{sig}"`. -/
def emailKey (to_email sig : String) : String := "EMAIL|" ++ to_email ++ "|" ++ sig

/-- Python `signatures or ["AVAILABLE"]`: the synthetic signature replaces an
empty itemised-slot list. -/
def effectiveSigs (signatures : List String) : List String :=
  if signatures.isEmpty then ["AVAILABLE"] else signatures

/-- One channel's `for sig in signatures or ["AVAILABLE"]` loop: for each
signature whose key is not yet seen, mark it seen and create the send task.
Returns the updated store, the tasks created, and every key consulted. -/
def notifyLoop (st : StateStore) (office_name : String) (now : Int)
    (keyFn : String → String) (mkTask : String → NotifyTask) :
    List String → StateStore × List NotifyTask × List String
  | [] => (st, [], [])
  | sig :: rest =>
    if st.was_seen office_name (keyFn sig) then
      let r := notifyLoop st office_name now keyFn mkTask rest
      (r.1, r.2.1, keyFn sig :: r.2.2)
    else
      let st1 := st.mark_seen office_name (keyFn sig) now
      let r := notifyLoop st1 office_name now keyFn mkTask rest
      (r.1, mkTask sig :: r.2.1, keyFn sig :: r.2.2)

/-- The Discord block of `_handle_result`: guarded only by the
`discord.enabled` config flag — `is_configured()` is not consulted before
marking keys seen. -/
def discordStage (cfg : NotifCfg) (st : StateStore) (office_name : String)
    (office_url : Option String) (now : Int) (effSigs : List String) :
    StateStore × List NotifyTask × List String :=
  if cfg.discord_enabled then
    notifyLoop st office_name now discordKey (NotifyTask.discord office_name office_url)
      effSigs
  else (st, [], [])

/-- The SMS block: guarded by `sms.enabled and self.sms.is_configured()`. -/
def smsStage (cfg : NotifCfg) (st : StateStore) (office_name : String)
    (office_url : Option String) (now : Int) (effSigs : List String) :
    StateStore × List NotifyTask × List String :=
  if cfg.sms_enabled && cfg.sms_configured then
    notifyLoop st office_name now smsKey (NotifyTask.sms office_name office_url) effSigs
  else (st, [], [])

/-- Recipients of the email block: the subscribers for this office, falling
back to the single test recipient from the environment (or nobody when that
is unset). -/
def emailRecipients (cfg : NotifCfg) (office_name : String) : List String :=
  let subs := get_subscribed_emails cfg office_name
  if subs.isEmpty then (if cfg.email_test_to = "" then [] else [cfg.email_test_to])
  else subs

/-- The nested `for to_email in recipients: for sig in ...` loops of the
email block. -/
def emailLoops (office_name : String) (office_url : Option String) (now : Int) :
    StateStore → List String → List String → StateStore × List NotifyTask × List String
  | st, [], _ => (st, [], [])
  | st, to_email :: rest, effSigs =>
    let r1 := notifyLoop st office_name now (emailKey to_email)
      (NotifyTask.email to_email office_name office_url) effSigs
    let r2 := emailLoops office_name office_url now r1.1 rest effSigs
    (r2.1, r1.2.1 ++ r2.2.1, r1.2.2 ++ r2.2.2)

/-- The email block: guarded by `email.enabled and self.email.is_configured()`. -/
def emailStage (cfg : NotifCfg) (st : StateStore) (office_name : String)
    (office_url : Option String) (now : Int) (effSigs : List String) :
    StateStore × List NotifyTask × List String :=
  if cfg.email_enabled && cfg.email_configured then
    emailLoops office_name office_url now st (emailRecipients cfg office_name) effSigs
  else (st, [], [])

/-- `Scheduler._handle_result`: on availability with notifications enabled,
run the Discord, SMS and email blocks in order, threading the dedup store;
otherwise only console output happens.  Returns the updated store, the
created tasks in creation order, and all dedup keys consulted. -/
def handle_result (cfg : NotifCfg) (st : StateStore) (office_name : String)
    (office_url : Option String) (available : Bool) (signatures : List String)
    (now : Int) : StateStore × List NotifyTask × List String :=
  if available && cfg.notifications_enabled then
    let effSigs := effectiveSigs signatures
    let r1 := discordStage cfg st office_name office_url now effSigs
    let r2 := smsStage cfg r1.1 office_name office_url now effSigs
    let r3 := emailStage cfg r2.1 office_name office_url now effSigs
    (r3.1, r1.2.1 ++ r2.2.1 ++ r3.2.1, r1.2.2 ++ r2.2.2 ++ r3.2.2)
  else (st, [], [])

/-- The guards of `_notify_discord`, `_notify_sms` and `_notify_email_to`:
whether a created task actually performs a send when it later runs. -/
def taskSends (cfg : NotifCfg) : NotifyTask → Bool
  | .discord _ _ _ =>
    cfg.notifications_enabled && cfg.discord_enabled && cfg.discord_configured
  | .sms _ _ _ =>
    cfg.notifications_enabled && cfg.sms_enabled && cfg.sms_configured
      && !(cfg.sms_test_to_number == "")
  | .email _ _ _ _ =>
    cfg.notifications_enabled && cfg.email_enabled && cfg.email_configured

theorem notifyLoop_keys (st : StateStore) (office_name : String) (now : Int)
    (keyFn : String → String) (mkTask : String → NotifyTask) (sigs : List String) :
    (notifyLoop st office_name now keyFn mkTask sigs).2.2 = sigs.map keyFn := by
  induction sigs generalizing st with
  | nil => rfl
  | cons sig rest ih =>
    by_cases h : st.was_seen office_name (keyFn sig)
    · simp [notifyLoop, h, ih]
    · simp [notifyLoop, h, ih]

theorem emailLoops_keys (office_name : String) (office_url : Option String) (now : Int)
    (st : StateStore) (recipients effSigs : List String) :
    (emailLoops office_name office_url now st recipients effSigs).2.2 =
      recipients.flatMap (fun r => effSigs.map (emailKey r)) := by
  induction recipients generalizing st with
  | nil => rfl
  | cons r rest ih => simp [emailLoops, notifyLoop_keys, ih]

theorem smsKey_ne_discordKey (s : String) : smsKey s ≠ discordKey s := by
  intro h
  have h1 : (smsKey s).data = s.data := congrArg String.data h
  unfold smsKey at h1
  rw [String.data_append] at h1
  have := congrArg List.length h1
  simp at this
  omega

theorem emailKey_ne_discordKey (r s : String) : emailKey r s ≠ discordKey s := by
  intro h
  have h1 : (emailKey r s).data = s.data := congrArg String.data h
  unfold emailKey at h1
  simp only [String.data_append] at h1
  have := congrArg List.length h1
  simp at this
  omega

theorem emailKey_ne_smsKey (r s : String) : emailKey r s ≠ smsKey s := by
  intro h
  have h1 : (emailKey r s).data = (smsKey s).data := congrArg String.data h
  unfold emailKey smsKey at h1
  simp only [String.data_append] at h1
  have := congrArg List.length h1
  simp at this
  omega

theorem emailKey_injective_recipient {r1 r2 : String} (s : String) (h : r1 ≠ r2) :
    emailKey r1 s ≠ emailKey r2 s := by
  intro heq
  apply h
  unfold emailKey at heq
  have h2 := congrArg String.data heq
  simp only [String.data_append, List.append_assoc] at h2
  have h3 := List.append_cancel_left h2
  rw [← List.append_assoc, ← List.append_assoc] at h3
  have h4 := List.append_cancel_right h3
  have h5 := List.append_cancel_right h4
  exact String.ext h5

/-- C5: the dedup keys used per channel for an office with new availability,
with `S` falling back to the single synthetic signature `"AVAILABLE"` when
the probe reports availability without itemised slots: the raw signature for
the broadcast (Discord) channel, `"SMS|" + s` for the single-recipient
channel, and `"EMAIL|" + r + "|" + s` per recipient `r` for the
multi-recipient channel — and these key forms never collide across channels
or across distinct recipients for the same signature, so each channel and
recipient decides freshness independently. -/
theorem dedup_key_schemes (cfg : NotifCfg) (st st1 st2 : StateStore)
    (office_name : String) (office_url : Option String) (now : Int)
    (signatures : List String)
    (hd : cfg.discord_enabled = true)
    (hs : cfg.sms_enabled = true ∧ cfg.sms_configured = true)
    (he : cfg.email_enabled = true ∧ cfg.email_configured = true) :
    (signatures = [] → effectiveSigs signatures = ["AVAILABLE"])
    ∧ (signatures ≠ [] → effectiveSigs signatures = signatures)
    ∧ (discordStage cfg st office_name office_url now (effectiveSigs signatures)).2.2 =
        (effectiveSigs signatures).map discordKey
    ∧ (smsStage cfg st1 office_name office_url now (effectiveSigs signatures)).2.2 =
        (effectiveSigs signatures).map smsKey
    ∧ (emailStage cfg st2 office_name office_url now (effectiveSigs signatures)).2.2 =
        (emailRecipients cfg office_name).flatMap
          (fun r => (effectiveSigs signatures).map (emailKey r))
    ∧ (∀ s, smsKey s ≠ discordKey s)
    ∧ (∀ r s, emailKey r s ≠ discordKey s)
    ∧ (∀ r s, emailKey r s ≠ smsKey s)
    ∧ (∀ r1 r2 s, r1 ≠ r2 → emailKey r1 s ≠ emailKey r2 s) := by
  refine ⟨?_, ?_, ?_, ?_, ?_, smsKey_ne_discordKey,
    emailKey_ne_discordKey, emailKey_ne_smsKey,
    fun r1 r2 s h => emailKey_injective_recipient s h⟩
  · intro h
    simp [effectiveSigs, h]
  · intro h
    simp [effectiveSigs, h]
  · simp [discordStage, hd, notifyLoop_keys]
  · simp [smsStage, hs.1, hs.2, notifyLoop_keys]
  · simp [emailStage, he.1, he.2, emailLoops_keys]

theorem dedup_key_schemes_witness :
    (NCVipDmv.smsStage
        { notifications_enabled := true, discord_enabled := true,
          discord_configured := true, sms_enabled := true, sms_configured := true,
          sms_test_to_number := "5551234", email_enabled := true,
          email_configured := true, email_test_to := "", subs_attached := true,
          subs_data := [("a@x.com", ["Raleigh"])] }
        (StateStore.init 12) "Raleigh" none 0 (effectiveSigs ["Mon 1/2 9:00 AM"])).2.2
      = ["SMS|Mon 1/2 9:00 AM"]
    ∧ emailKey "a@x.com" "Mon 1/2 9:00 AM" ≠ emailKey "b@x.com" "Mon 1/2 9:00 AM" := by
  have h := dedup_key_schemes
    { notifications_enabled := true, discord_enabled := true,
      discord_configured := true, sms_enabled := true, sms_configured := true,
      sms_test_to_number := "5551234", email_enabled := true,
      email_configured := true, email_test_to := "", subs_attached := true,
      subs_data := [("a@x.com", ["Raleigh"])] }
    (StateStore.init 12) (StateStore.init 12) (StateStore.init 12)
    "Raleigh" none 0 ["Mon 1/2 9:00 AM"] rfl ⟨rfl, rfl⟩ ⟨rfl, rfl⟩
  refine ⟨?_, h.2.2.2.2.2.2.2.2 "a@x.com" "b@x.com" "Mon 1/2 9:00 AM" (by decide)⟩
  rw [h.2.2.2.1]
  decide

/-- Configuration in which only the Discord channel is enabled, with its
webhook env var unset (not configured). -/
def discordOnlyCfg : NotifCfg :=
  { notifications_enabled := true
    discord_enabled := true
    discord_configured := false
    sms_enabled := false
    sms_configured := false
    sms_test_to_number := ""
    email_enabled := false
    email_configured := false
    email_test_to := ""
    subs_attached := false
    subs_data := [] }

/-- C3 counterexample: with the Discord channel enabled but its webhook not
configured, processing an available result is not a no-op for that channel:
`_handle_result` marks the raw signature seen in the dedup store (the store
changes) and creates the send task, even though the task's
`is_configured()` guard means no send is ever dispatched.  This refutes the
claim that an enabled-but-unconfigured broadcast channel creates or
refreshes no dedup-store entry. -/
theorem channel_noop_counterexample :
    (handle_result discordOnlyCfg (StateStore.init 12) "Raleigh" none true ["sig1"] 5).1.was_seen
        "Raleigh" "sig1" = true
    ∧ (StateStore.init 12).was_seen "Raleigh" "sig1" = false
    ∧ (handle_result discordOnlyCfg (StateStore.init 12) "Raleigh" none true ["sig1"] 5).2.1
        = [NotifyTask.discord "Raleigh" none "sig1"]
    ∧ taskSends discordOnlyCfg (NotifyTask.discord "Raleigh" none "sig1") = false := by
  decide

/-- C3 (amended): a channel that is disabled is a silent no-op — no task is
created, no key consulted, the dedup store is untouched — and the SMS and
email channels are likewise silent no-ops when enabled but not configured.
The Discord (broadcast) channel, however, checks its webhook configuration
only inside the detached send task: enabled but not configured, it
dispatches no send, yet dedup entries under the broadcast key scheme are
still created/refreshed. -/
theorem channel_noop (cfg : NotifCfg) (st : StateStore) (office_name : String)
    (office_url : Option String) (now : Int) (effSigs : List String) :
    (cfg.discord_enabled = false →
      discordStage cfg st office_name office_url now effSigs = (st, [], []))
    ∧ (cfg.sms_enabled = false ∨ cfg.sms_configured = false →
      smsStage cfg st office_name office_url now effSigs = (st, [], []))
    ∧ (cfg.email_enabled = false ∨ cfg.email_configured = false →
      emailStage cfg st office_name office_url now effSigs = (st, [], []))
    ∧ (cfg.notifications_enabled = false → ∀ available signatures,
      handle_result cfg st office_name office_url available signatures now = (st, [], []))
    ∧ (cfg.discord_configured = false →
      ∀ o u s, taskSends cfg (NotifyTask.discord o u s) = false) := by
  refine ⟨?_, ?_, ?_, ?_, ?_⟩
  · intro h
    simp [discordStage, h]
  · intro h
    rcases h with h | h <;> simp [smsStage, h]
  · intro h
    rcases h with h | h <;> simp [emailStage, h]
  · intro h available signatures
    simp [handle_result, h]
  · intro h o u s
    simp [taskSends, h]

/-- Configuration in which every channel is disabled. -/
def allOffCfg : NotifCfg :=
  { notifications_enabled := true
    discord_enabled := false
    discord_configured := false
    sms_enabled := false
    sms_configured := false
    sms_test_to_number := ""
    email_enabled := false
    email_configured := false
    email_test_to := ""
    subs_attached := false
    subs_data := [] }

theorem channel_noop_witness :
    smsStage allOffCfg (StateStore.init 12) "Cary" none 0 ["s"]
        = (StateStore.init 12, [], [])
    ∧ discordStage allOffCfg (StateStore.init 12) "Cary" none 0 ["s"]
        = (StateStore.init 12, [], [])
    ∧ taskSends discordOnlyCfg (NotifyTask.discord "Cary" none "s") = false := by
  have h1 := channel_noop allOffCfg (StateStore.init 12) "Cary" none 0 ["s"]
  have h2 := channel_noop discordOnlyCfg (StateStore.init 12) "Cary" none 0 ["s"]
  exact ⟨h1.2.1 (Or.inl rfl), h1.1 rfl, h2.2.2.2.2 rfl "Cary" none "s"⟩

/-! ## Iteration semantics (`scheduler.py`, `Scheduler._iteration_playwright`)

asyncio runs tasks cooperatively on one thread, so interleaving can happen
only at `await` points.  `_check_office_playwright` has exactly two: the
semaphore acquisition (`async with sem`) and the probe
(`await checker.check_office(...)`).  Everything after the probe returns —
the `results` append, `_handle_result` (whose `asyncio.create_task` calls
do not block), the semaphore release — runs atomically before the task
ends.  An iteration execution is therefore an interleaving of `acq i` /
`fin i` events, one pair per office task, constrained by the semaphore. -/

/-- Outcome of `checker.check_office` for one office: a result carrying the
availability flag and the slot signature strings, or a raised exception. -/
inductive Outcome where
  | ok (available : Bool) (signatures : List String)
  | err
deriving DecidableEq

/-- Scheduling events of one iteration: task `i` passes the semaphore
(`acq i`), or task `i`'s probe completes and the task runs to its end
(`fin i`). -/
inductive Event where
  | acq (i : Nat)
  | fin (i : Nat)
deriving DecidableEq

/-- One entry of the `results` accumulator appended by
`_check_office_playwright` (office, url, available, count, samples). -/
structure ResultEntry where
  office : String
  url : Option String
  available : Bool
  count : Nat
  samples : List String
deriving DecidableEq

/-- The result entry office `i` contributes, `none` when its probe raised. -/
def entryOf (offices : List (String × Option String)) (outcomes : List Outcome)
    (i : Nat) : Option ResultEntry :=
  match offices[i]?, outcomes[i]? with
  | some (name, url), some (.ok avail sigs) =>
    some { office := name, url := url, available := avail, count := sigs.length,
           samples := sigs.take 5 }
  | _, _ => none

/-- The scheduler-side state of one in-flight iteration: free semaphore
permits, which tasks have started/finished, the dedup store, the `results`
accumulator, the created notification tasks, and a log recording, for each
completed probe in completion order, the dedup keys consulted when its
result was handled (empty for an errored probe, which is caught without
touching the store). -/
structure IterState where
  sem : Nat
  started : List Nat
  finished : List Nat
  store : StateStore
  results : List ResultEntry
  tasks : List NotifyTask
  decisionLog : List (Nat × List String)
deriving DecidableEq

/-- One event-loop step.  `acq i` needs a free permit and an unstarted task;
`fin i` needs a started, unfinished task and atomically appends the result
entry, runs `_handle_result` (on success; an exception is caught and makes
no decision), and releases the permit. -/
def step (cfg : NotifCfg) (offices : List (String × Option String))
    (outcomes : List Outcome) (now : Int) (s : IterState) : Event → Option IterState
  | .acq i =>
    if i < offices.length ∧ i ∉ s.started ∧ 0 < s.sem then
      some { s with sem := s.sem - 1, started := s.started ++ [i] }
    else none
  | .fin i =>
    if i ∈ s.started ∧ i ∉ s.finished then
      match offices[i]?, outcomes[i]? with
      | some (name, url), some (.ok avail sigs) =>
        let entry : ResultEntry :=
          { office := name, url := url, available := avail, count := sigs.length,
            samples := sigs.take 5 }
        let r := handle_result cfg s.store name url avail sigs now
        some { s with
          sem := s.sem + 1,
          finished := s.finished ++ [i],
          results := s.results ++ [entry],
          store := r.1,
          tasks := s.tasks ++ r.2.1,
          decisionLog := s.decisionLog ++ [(i, r.2.2)] }
      | some _, some .err =>
        some { s with
          sem := s.sem + 1,
          finished := s.finished ++ [i],
          decisionLog := s.decisionLog ++ [(i, [])] }
      | _, _ => none
    else none

/-- `Scheduler.run` clamps the configured bound:
`concurrency = max(1, self.config.settings.max_concurrent_checks)`. -/
def semCapacity (max_concurrent_checks : Nat) : Nat := max 1 max_concurrent_checks

/-- State at the start of an iteration: `purge_expired` has just run, no
task has started, and the semaphore holds its full capacity. -/
def initState (max_concurrent_checks : Nat) (st0 : StateStore) (now : Int) : IterState :=
  { sem := semCapacity max_concurrent_checks,
    started := [],
    finished := [],
    store := st0.purge_expired now,
    results := [],
    tasks := [],
    decisionLog := [] }

/-- Run an event trace from a given iteration state; `none` marks a trace
the event loop cannot produce. -/
def runFrom (cfg : NotifCfg) (offices : List (String × Option String))
    (outcomes : List Outcome) (now : Int) (s : IterState) (tr : List Event) :
    Option IterState :=
  tr.foldlM (step cfg offices outcomes now) s

/-- Run an event trace of one full iteration from its initial state. -/
def runIter (cfg : NotifCfg) (offices : List (String × Option String))
    (outcomes : List Outcome) (N : Nat) (st0 : StateStore) (now : Int)
    (tr : List Event) : Option IterState :=
  runFrom cfg offices outcomes now (initState N st0 now) tr

/-- Number of probe calls outstanding: tasks past the semaphore whose probe
has not completed. -/
def outstanding (s : IterState) : Nat :=
  (s.started.filter (fun i => decide (i ∉ s.finished))).length

/-- All probe tasks of the iteration have completed — the point at which
`await asyncio.gather(*tasks)` returns. -/
def complete (offices : List (String × Option String)) (s : IterState) : Prop :=
  ∀ i < offices.length, i ∈ s.finished

instance (offices : List (String × Option String)) (s : IterState) :
    Decidable (complete offices s) := by
  unfold complete
  infer_instance

/-- The value assigned to `self.latest_results` by the iteration, available
only once the gather barrier has been passed. -/
def publishedResults (cfg : NotifCfg) (offices : List (String × Option String))
    (outcomes : List Outcome) (N : Nat) (st0 : StateStore) (now : Int)
    (tr : List Event) : Option (List ResultEntry) :=
  match runIter cfg offices outcomes N st0 now tr with
  | none => none
  | some s => if complete offices s then some s.results else none

/-- Invariant of every reachable iteration state. -/
structure IterInv (offices : List (String × Option String)) (outcomes : List Outcome)
    (N : Nat) (s : IterState) : Prop where
  sem_bound : s.sem + outstanding s = semCapacity N
  started_nodup : s.started.Nodup
  finished_nodup : s.finished.Nodup
  finished_sub : ∀ i ∈ s.finished, i ∈ s.started
  started_lt : ∀ i ∈ s.started, i < offices.length
  log_fst : s.decisionLog.map Prod.fst = s.finished
  results_eq : s.results = s.finished.filterMap (entryOf offices outcomes)

theorem filter_not_mem_append (l fin : List Nat) (i : Nat) (hi : i ∉ fin) :
    ((l ++ [i]).filter (fun j => decide (j ∉ fin))).length =
      (l.filter (fun j => decide (j ∉ fin))).length + 1 := by
  rw [List.filter_append]
  simp [hi]

theorem filter_not_mem_snoc (l fin : List Nat) (i : Nat) (hl : l.Nodup)
    (hi : i ∈ l) (hif : i ∉ fin) :
    (l.filter (fun j => decide (j ∉ fin ++ [i]))).length + 1 =
      (l.filter (fun j => decide (j ∉ fin))).length := by
  induction l with
  | nil => simp at hi
  | cons a as ih =>
    rw [List.nodup_cons] at hl
    by_cases hia : i = a
    · subst hia
      have hcongr : as.filter (fun j => decide (j ∉ fin ++ [i])) =
          as.filter (fun j => decide (j ∉ fin)) :=
        List.filter_congr (fun x hx => by
          have hxi : x ≠ i := fun hxa => hl.1 (hxa ▸ hx)
          simp [hxi])
      have h1 : (decide (i ∉ fin ++ [i])) = false := by simp
      have h2 : (decide (i ∉ fin)) = true := by simp [hif]
      rw [List.filter_cons, List.filter_cons, h1, h2, hcongr]
      simp
    · have hias : i ∈ as := by
        rcases List.mem_cons.mp hi with h | h
        · exact absurd h hia
        · exact h
      have hne : a ≠ i := fun h => hia h.symm
      have htail := ih hl.2 hias
      rw [List.filter_cons, List.filter_cons]
      by_cases ha : a ∈ fin
      · have h1 : (decide (a ∉ fin ++ [i])) = false := by simp [ha]
        have h2 : (decide (a ∉ fin)) = false := by simp [ha]
        rw [h1, h2]
        simpa using htail
      · have h1 : (decide (a ∉ fin ++ [i])) = true := by simp [ha, hne]
        have h2 : (decide (a ∉ fin)) = true := by simp [ha]
        rw [h1, h2]
        simp only [if_true, List.length_cons]
        omega

theorem initInv (offices : List (String × Option String)) (outcomes : List Outcome)
    (N : Nat) (st0 : StateStore) (now : Int) :
    IterInv offices outcomes N (initState N st0 now) := by
  constructor <;> simp [initState, outstanding]

theorem step_counts {cfg : NotifCfg} {offices : List (String × Option String)}
    {outcomes : List Outcome} {now : Int} {s : IterState} {e : Event} {s' : IterState}
    (h : step cfg offices outcomes now s e = some s') :
    s'.started.length + s'.finished.length = s.started.length + s.finished.length + 1 := by
  cases e with
  | acq i =>
    simp only [step] at h
    by_cases hc : i < offices.length ∧ i ∉ s.started ∧ 0 < s.sem
    · rw [if_pos hc] at h
      have := Option.some.inj h
      subst this
      simp only [List.length_append, List.length_cons, List.length_nil]
      omega
    · rw [if_neg hc] at h
      exact Option.noConfusion h
  | fin i =>
    simp only [step] at h
    by_cases hc : i ∈ s.started ∧ i ∉ s.finished
    · rw [if_pos hc] at h
      cases ho : offices[i]? with
      | none =>
        rw [ho] at h
        cases hu : outcomes[i]? <;> (rw [hu] at h; simp at h)
      | some p =>
        obtain ⟨name, url⟩ := p
        cases hu : outcomes[i]? with
        | none =>
          rw [ho, hu] at h
          simp at h
        | some out =>
          cases out with
          | ok avail sigs =>
            rw [ho, hu] at h
            have := Option.some.inj h
            subst this
            simp only [List.length_append, List.length_cons, List.length_nil]
            omega
          | err =>
            rw [ho, hu] at h
            have := Option.some.inj h
            subst this
            simp only [List.length_append, List.length_cons, List.length_nil]
            omega
    · rw [if_neg hc] at h
      exact Option.noConfusion h

theorem step_inv {cfg : NotifCfg} {offices : List (String × Option String)}
    {outcomes : List Outcome} {now : Int} {N : Nat} {s : IterState} {e : Event}
    {s' : IterState} (hinv : IterInv offices outcomes N s)
    (h : step cfg offices outcomes now s e = some s') :
    IterInv offices outcomes N s' := by
  cases e with
  | acq i =>
    simp only [step] at h
    by_cases hc : i < offices.length ∧ i ∉ s.started ∧ 0 < s.sem
    · rw [if_pos hc] at h
      obtain ⟨hlt, hns, hsem⟩ := hc
      have hif : i ∉ s.finished := fun hf => hns (hinv.finished_sub i hf)
      have hs' := Option.some.inj h
      subst hs'
      constructor
      · have h2 := hinv.sem_bound
        unfold outstanding at h2 ⊢
        show s.sem - 1 +
          ((s.started ++ [i]).filter (fun j => decide (j ∉ s.finished))).length
          = semCapacity N
        rw [filter_not_mem_append s.started s.finished i hif]
        omega
      · show (s.started ++ [i]).Nodup
        rw [List.nodup_append]
        refine ⟨hinv.started_nodup, List.nodup_singleton i, ?_⟩
        intro a ha hb
        simp only [List.mem_singleton] at hb
        exact hns (hb ▸ ha)
      · exact hinv.finished_nodup
      · intro j hj
        exact List.mem_append_left _ (hinv.finished_sub j hj)
      · intro j hj
        rcases List.mem_append.mp hj with hj | hj
        · exact hinv.started_lt j hj
        · simp only [List.mem_singleton] at hj
          subst hj
          exact hlt
      · exact hinv.log_fst
      · exact hinv.results_eq
    · rw [if_neg hc] at h
      exact Option.noConfusion h
  | fin i =>
    simp only [step] at h
    by_cases hc : i ∈ s.started ∧ i ∉ s.finished
    · rw [if_pos hc] at h
      obtain ⟨hst, hnf⟩ := hc
      cases ho : offices[i]? with
      | none =>
        rw [ho] at h
        cases hu : outcomes[i]? <;> (rw [hu] at h; simp at h)
      | some p =>
        obtain ⟨name, url⟩ := p
        cases hu : outcomes[i]? with
        | none =>
          rw [ho, hu] at h
          simp at h
        | some out =>
          have hsnoc := filter_not_mem_snoc s.started s.finished i
            hinv.started_nodup hst hnf
          cases out with
          | ok avail sigs =>
            rw [ho, hu] at h
            have hs' := Option.some.inj h
            subst hs'
            constructor
            · have h2 := hinv.sem_bound
              unfold outstanding at h2 ⊢
              show s.sem + 1 +
                ((s.started.filter (fun j => decide (j ∉ s.finished ++ [i]))).length)
                = semCapacity N
              omega
            · exact hinv.started_nodup
            · show (s.finished ++ [i]).Nodup
              rw [List.nodup_append]
              refine ⟨hinv.finished_nodup, List.nodup_singleton i, ?_⟩
              intro a ha hb
              simp only [List.mem_singleton] at hb
              exact hnf (hb ▸ ha)
            · intro j hj
              rcases List.mem_append.mp hj with hj | hj
              · exact hinv.finished_sub j hj
              · simp only [List.mem_singleton] at hj
                subst hj
                exact hst
            · exact hinv.started_lt
            · show (s.decisionLog ++ [(i, _)]).map Prod.fst = s.finished ++ [i]
              rw [List.map_append, hinv.log_fst]
              rfl
            · show s.results ++ [_] = (s.finished ++ [i]).filterMap (entryOf offices outcomes)
              rw [List.filterMap_append, ← hinv.results_eq]
              have : (entryOf offices outcomes i) =
                  some { office := name, url := url, available := avail,
                         count := sigs.length, samples := sigs.take 5 } := by
                simp [entryOf, ho, hu]
              simp [this]
          | err =>
            rw [ho, hu] at h
            have hs' := Option.some.inj h
            subst hs'
            constructor
            · have h2 := hinv.sem_bound
              unfold outstanding at h2 ⊢
              show s.sem + 1 +
                ((s.started.filter (fun j => decide (j ∉ s.finished ++ [i]))).length)
                = semCapacity N
              omega
            · exact hinv.started_nodup
            · show (s.finished ++ [i]).Nodup
              rw [List.nodup_append]
              refine ⟨hinv.finished_nodup, List.nodup_singleton i, ?_⟩
              intro a ha hb
              simp only [List.mem_singleton] at hb
              exact hnf (hb ▸ ha)
            · intro j hj
              rcases List.mem_append.mp hj with hj | hj
              · exact hinv.finished_sub j hj
              · simp only [List.mem_singleton] at hj
                subst hj
                exact hst
            · exact hinv.started_lt
            · show (s.decisionLog ++ [(i, [])]).map Prod.fst = s.finished ++ [i]
              rw [List.map_append, hinv.log_fst]
              rfl
            · show s.results = (s.finished ++ [i]).filterMap (entryOf offices outcomes)
              rw [List.filterMap_append, ← hinv.results_eq]
              have : (entryOf offices outcomes i) = none := by
                simp [entryOf, ho, hu]
              simp [this]
    · rw [if_neg hc] at h
      exact Option.noConfusion h

theorem runFrom_inv {cfg : NotifCfg} {offices : List (String × Option String)}
    {outcomes : List Outcome} {now : Int} {N : Nat} {s : IterState} {tr : List Event}
    {s' : IterState} (hinv : IterInv offices outcomes N s)
    (h : runFrom cfg offices outcomes now s tr = some s') :
    IterInv offices outcomes N s' := by
  induction tr generalizing s with
  | nil =>
    simp [runFrom] at h
    exact h ▸ hinv
  | cons e tr ih =>
    simp only [runFrom, List.foldlM_cons] at h
    cases hstep : step cfg offices outcomes now s e with
    | none =>
      rw [hstep] at h
      simp at h
    | some s1 =>
      rw [hstep] at h
      exact ih (step_inv hinv hstep) h

theorem runIter_inv {cfg : NotifCfg} {offices : List (String × Option String)}
    {outcomes : List Outcome} {N : Nat} {st0 : StateStore} {now : Int} {tr : List Event}
    {s : IterState} (h : runIter cfg offices outcomes N st0 now tr = some s) :
    IterInv offices outcomes N s :=
  runFrom_inv (initInv offices outcomes N st0 now) h

theorem length_le_of_nodup_lt (l : List Nat) (n : Nat) (hnd : l.Nodup)
    (hlt : ∀ i ∈ l, i < n) : l.length ≤ n := by
  have hsub : l.toFinset ⊆ Finset.range n := fun x hx =>
    Finset.mem_range.mpr (hlt x (List.mem_toFinset.mp hx))
  have := Finset.card_le_card hsub
  rwa [List.toFinset_card_of_nodup hnd, Finset.card_range] at this

theorem complete_of_full {offices : List (String × Option String)}
    {outcomes : List Outcome} {N : Nat} {s : IterState}
    (hinv : IterInv offices outcomes N s)
    (heq : s.started.length + s.finished.length = 2 * offices.length) :
    complete offices s := by
  have hb1 : s.started.length ≤ offices.length :=
    length_le_of_nodup_lt _ _ hinv.started_nodup hinv.started_lt
  have hb2 : s.finished.length ≤ offices.length :=
    length_le_of_nodup_lt _ _ hinv.finished_nodup
      (fun j hj => hinv.started_lt j (hinv.finished_sub j hj))
  have hflen : s.finished.length = offices.length := by omega
  intro i hi
  have hsub : s.finished.toFinset ⊆ Finset.range offices.length := fun x hx =>
    Finset.mem_range.mpr (hinv.started_lt x (hinv.finished_sub x (List.mem_toFinset.mp hx)))
  have hcard : s.finished.toFinset = Finset.range offices.length :=
    Finset.eq_of_subset_of_card_le hsub (by
      rw [List.toFinset_card_of_nodup hinv.finished_nodup, hflen, Finset.card_range])
  have : i ∈ s.finished.toFinset := by
    rw [hcard]
    exact Finset.mem_range.mpr hi
  exact List.mem_toFinset.mp this

theorem step_progress {cfg : NotifCfg} {offices : List (String × Option String)}
    {outcomes : List Outcome} {now : Int} {N : Nat} {s : IterState}
    (hinv : IterInv offices outcomes N s) (hlen : outcomes.length = offices.length)
    (hnc : ¬complete offices s) :
    ∃ e, (step cfg offices outcomes now s e).isSome = true := by
  unfold complete at hnc
  push_neg at hnc
  obtain ⟨i, hilt, hinf⟩ := hnc
  by_cases hex : ∃ j, j ∈ s.started ∧ j ∉ s.finished
  · obtain ⟨j, hjs, hjf⟩ := hex
    refine ⟨Event.fin j, ?_⟩
    have hjlt := hinv.started_lt j hjs
    obtain ⟨p, ho⟩ := Option.isSome_iff_exists.mp
      (show (offices[j]?).isSome by simp [List.getElem?_eq_getElem hjlt])
    obtain ⟨name, url⟩ := p
    obtain ⟨out, hu⟩ := Option.isSome_iff_exists.mp
      (show (outcomes[j]?).isSome by
        simp [List.getElem?_eq_getElem (show j < outcomes.length by omega)])
    simp only [step]
    rw [if_pos ⟨hjs, hjf⟩, ho, hu]
    cases out with
    | ok avail sigs => simp
    | err => simp
  · push_neg at hex
    have hins : i ∉ s.started := fun hs' => hinf (hex i hs')
    have hsem : 0 < s.sem := by
      have hout0 : outstanding s = 0 := by
        unfold outstanding
        rw [List.length_eq_zero]
        apply List.filter_eq_nil_iff.mpr
        intro j hj
        simp [hex j hj]
      have := hinv.sem_bound
      unfold semCapacity at this
      omega
    refine ⟨Event.acq i, ?_⟩
    simp only [step]
    rw [if_pos ⟨hilt, hins, hsem⟩]
    simp

theorem completion_exists (cfg : NotifCfg) (offices : List (String × Option String))
    (outcomes : List Outcome) (now : Int) (N : Nat)
    (hlen : outcomes.length = offices.length) :
    ∀ s : IterState, IterInv offices outcomes N s →
      ∃ tr2 s2, runFrom cfg offices outcomes now s tr2 = some s2
        ∧ complete offices s2 := by
  have main : ∀ (m : Nat) (s : IterState), IterInv offices outcomes N s →
      2 * offices.length - (s.started.length + s.finished.length) = m →
      ∃ tr2 s2, runFrom cfg offices outcomes now s tr2 = some s2
        ∧ complete offices s2 := by
    intro m
    induction m using Nat.strong_induction_on with
    | _ m ih =>
      intro s hinv hm
      by_cases hc : complete offices s
      · exact ⟨[], s, rfl, hc⟩
      · obtain ⟨e, he⟩ := @step_progress cfg offices outcomes now N s hinv hlen hc
        obtain ⟨s1, hs1⟩ := Option.isSome_iff_exists.mp he
        have hinv1 := step_inv hinv hs1
        have hincr := step_counts hs1
        have hbs1 : s.started.length ≤ offices.length :=
          length_le_of_nodup_lt _ _ hinv.started_nodup hinv.started_lt
        have hbs2 : s.finished.length ≤ offices.length :=
          length_le_of_nodup_lt _ _ hinv.finished_nodup
            (fun j hj => hinv.started_lt j (hinv.finished_sub j hj))
        have hneq : s.started.length + s.finished.length ≠ 2 * offices.length :=
          fun heq => hc (complete_of_full hinv heq)
        have hm1 : 2 * offices.length - (s1.started.length + s1.finished.length) < m := by
          omega
        obtain ⟨tr2, s2, hrun, hc2⟩ := ih _ hm1 s1 hinv1 rfl
        refine ⟨e :: tr2, s2, ?_, hc2⟩
        simp only [runFrom, List.foldlM_cons, hs1]
        exact hrun
  intro s hinv
  exact main (2 * offices.length - (s.started.length + s.finished.length)) s hinv rfl

/-- C9: with `maxConcurrentProbes = N ≥ 1` and more configured offices than
`N`, at no instant during an iteration are more than `N` probe calls
outstanding: after every prefix of every schedulable iteration trace, the
number of tasks admitted past the semaphore whose probe has not yet
completed is at most `N`. -/
theorem concurrency_bound (cfg : NotifCfg) (offices : List (String × Option String))
    (outcomes : List Outcome) (N : Nat) (st0 : StateStore) (now : Int)
    (tr₁ tr₂ : List Event) (hN : 1 ≤ N) (hM : N < offices.length)
    (h : (runIter cfg offices outcomes N st0 now (tr₁ ++ tr₂)).isSome = true) :
    ∃ s₁, runIter cfg offices outcomes N st0 now tr₁ = some s₁
      ∧ outstanding s₁ ≤ N := by
  obtain ⟨s, hs⟩ := Option.isSome_iff_exists.mp h
  simp only [runIter, runFrom, List.foldlM_append] at hs
  cases h1 : List.foldlM (step cfg offices outcomes now) (initState N st0 now) tr₁ with
  | none =>
    rw [h1] at hs
    simp at hs
  | some s₁ =>
    rw [h1] at hs
    refine ⟨s₁, h1, ?_⟩
    have hinv := runIter_inv
      (show runIter cfg offices outcomes N st0 now tr₁ = some s₁ from h1)
    have hb := hinv.sem_bound
    have hcap : semCapacity N = N := by
      unfold semCapacity
      omega
    omega

theorem concurrency_bound_witness :
    ∃ s₁, runIter allOffCfg [("A", none), ("B", none), ("C", none)]
        [Outcome.ok false [], Outcome.ok false [], Outcome.ok false []] 2
        (StateStore.init 12) 0 [Event.acq 0, Event.acq 1] = some s₁
      ∧ outstanding s₁ ≤ 2 :=
  concurrency_bound allOffCfg [("A", none), ("B", none), ("C", none)]
    [Outcome.ok false [], Outcome.ok false [], Outcome.ok false []] 2
    (StateStore.init 12) 0 [Event.acq 0, Event.acq 1]
    [Event.fin 0, Event.fin 1, Event.acq 2, Event.fin 2]
    (by decide) (by decide) (by decide)

/-- C1 counterexample: with two offices both reporting availability, the
trace `acq 0, fin 0, acq 1, fin 1` is a schedulable iteration execution
(its full form completes the iteration), yet after its prefix
`acq 0, fin 0` a notification decision for office 0 has already been made —
the dedup key `"s"` was checked and marked — while office 1's probe has not
finished (`finished = [0]`).  This refutes the claim that all of the
iteration's probe results are available before any notification decision is
made: `_handle_result` runs inside each probe task, before the
`asyncio.gather` barrier. -/
theorem decision_before_barrier_counterexample :
    ((runIter discordOnlyCfg [("A", none), ("B", none)]
        [Outcome.ok true ["s"], Outcome.ok true ["s"]] 2 (StateStore.init 12) 0
        [Event.acq 0, Event.fin 0]).map
      (fun s => (s.decisionLog, s.finished)) = some ([(0, ["s"])], [0]))
    ∧ ((runIter discordOnlyCfg [("A", none), ("B", none)]
        [Outcome.ok true ["s"], Outcome.ok true ["s"]] 2 (StateStore.init 12) 0
        [Event.acq 0, Event.fin 0, Event.acq 1, Event.fin 1]).map
      (fun s => decide (complete [("A", none), ("B", none)] s)) = some true) := by
  decide

/-- C1 (amended): within an iteration, every notification decision for an
office's result is made atomically at the completion of that office's own
probe — the decision log lines up one-to-one, in completion order, with the
finished probes — so a decision for one office may precede another
office's probe completion; the aggregated results snapshot
(`latest_results`) is published only after every probe task has finished. -/
theorem decision_timing (cfg : NotifCfg) (offices : List (String × Option String))
    (outcomes : List Outcome) (N : Nat) (st0 : StateStore) (now : Int)
    (tr : List Event) (s : IterState)
    (h : runIter cfg offices outcomes N st0 now tr = some s) :
    s.decisionLog.map Prod.fst = s.finished
    ∧ (∀ p ∈ s.decisionLog, p.1 ∈ s.finished)
    ∧ (∀ rs, publishedResults cfg offices outcomes N st0 now tr = some rs →
        complete offices s ∧ rs = s.results) := by
  have hinv := runIter_inv h
  refine ⟨hinv.log_fst, ?_, ?_⟩
  · intro p hp
    rw [← hinv.log_fst]
    exact List.mem_map_of_mem Prod.fst hp
  · intro rs hrs
    have hrs' : (if complete offices s then some s.results else none) = some rs := by
      unfold publishedResults at hrs
      rw [h] at hrs
      exact hrs
    by_cases hc : complete offices s
    · rw [if_pos hc] at hrs'
      exact ⟨hc, (Option.some.inj hrs').symm⟩
    · rw [if_neg hc] at hrs'
      exact Option.noConfusion hrs'

theorem decision_timing_witness :
    ∃ s, runIter discordOnlyCfg [("A", none)] [Outcome.ok true ["s"]] 1
        (StateStore.init 12) 0 [Event.acq 0, Event.fin 0] = some s
      ∧ s.decisionLog.map Prod.fst = s.finished := by
  have hsome : (runIter discordOnlyCfg [("A", none)] [Outcome.ok true ["s"]] 1
      (StateStore.init 12) 0 [Event.acq 0, Event.fin 0]).isSome = true := by
    decide
  obtain ⟨s, hs⟩ := Option.isSome_iff_exists.mp hsome
  exact ⟨s, hs,
    (decision_timing discordOnlyCfg [("A", none)] [Outcome.ok true ["s"]] 1
      (StateStore.init 12) 0 [Event.acq 0, Event.fin 0] s hs).1⟩

/-- C6: probe failures are isolated per office: in every iteration where the
probe for office A raises and the probe for office B succeeds, the
iteration can always be driven to completion (the exception is caught
inside A's task and never invalidates a schedule), and in every completed
state the aggregated snapshot contains B's result entry and no entry for
A. -/
theorem fault_isolation (cfg : NotifCfg) (offices : List (String × Option String))
    (outcomes : List Outcome) (N : Nat) (st0 : StateStore) (now : Int)
    (a b : Nat) (oaName obName : String) (oaUrl obUrl : Option String)
    (av : Bool) (sigs : List String)
    (hlen : outcomes.length = offices.length)
    (hnd : (offices.map Prod.fst).Nodup)
    (hao : offices[a]? = some (oaName, oaUrl))
    (hae : outcomes[a]? = some Outcome.err)
    (hbo : offices[b]? = some (obName, obUrl))
    (hbk : outcomes[b]? = some (Outcome.ok av sigs))
    (tr : List Event) (s : IterState)
    (h : runIter cfg offices outcomes N st0 now tr = some s) :
    (∃ tr2 s2, runFrom cfg offices outcomes now s tr2 = some s2
      ∧ complete offices s2)
    ∧ (complete offices s →
        (∃ e ∈ s.results, e.office = obName ∧ e.url = obUrl ∧ e.available = av
          ∧ e.count = sigs.length ∧ e.samples = sigs.take 5)
        ∧ (∀ e ∈ s.results, e.office ≠ oaName)) := by
  have hinv := runIter_inv h
  constructor
  · exact completion_exists cfg offices outcomes now N hlen s hinv
  · intro hc
    have hblt : b < offices.length := by
      by_contra hge
      rw [List.getElem?_eq_none (le_of_not_lt hge)] at hbo
      exact Option.noConfusion hbo
    constructor
    · have hbfin : b ∈ s.finished := hc b hblt
      have hEb : entryOf offices outcomes b =
          some { office := obName, url := obUrl, available := av,
                 count := sigs.length, samples := sigs.take 5 } := by
        simp [entryOf, hbo, hbk]
      refine ⟨{ office := obName, url := obUrl, available := av,
                count := sigs.length, samples := sigs.take 5 },
        ?_, rfl, rfl, rfl, rfl, rfl⟩
      rw [hinv.results_eq]
      exact List.mem_filterMap.mpr ⟨b, hbfin, hEb⟩
    · intro e he hoa
      rw [hinv.results_eq] at he
      obtain ⟨i, hifin, hEi⟩ := List.mem_filterMap.mp he
      cases hoi : offices[i]? with
      | none => simp [entryOf, hoi] at hEi
      | some p =>
        obtain ⟨nm, u⟩ := p
        cases hui : outcomes[i]? with
        | none => simp [entryOf, hoi, hui] at hEi
        | some out =>
          cases out with
          | err => simp [entryOf, hoi, hui] at hEi
          | ok av2 sg2 =>
            simp only [entryOf, hoi, hui] at hEi
            have hEi' := Option.some.inj hEi
            have hoffice : e.office = nm := by rw [← hEi']
            have hnm : nm = oaName := by rw [← hoffice, hoa]
            have hilt : i < offices.length := by
              by_contra hge
              rw [List.getElem?_eq_none (le_of_not_lt hge)] at hoi
              exact Option.noConfusion hoi
            have h1 : (offices.map Prod.fst)[i]? = some oaName := by
              rw [List.getElem?_map, hoi]
              simp [hnm]
            have h2 : (offices.map Prod.fst)[a]? = some oaName := by
              rw [List.getElem?_map, hao]
              rfl
            have hia : i = a :=
              List.getElem?_inj (by simpa using hilt) hnd (h1.trans h2.symm)
            rw [hia, hae] at hui
            exact Outcome.noConfusion (Option.some.inj hui)

theorem fault_isolation_witness :
    ∃ s, runIter discordOnlyCfg [("A", none), ("B", none)]
        [Outcome.err, Outcome.ok true ["s"]] 2 (StateStore.init 12) 0
        [Event.acq 0, Event.fin 0, Event.acq 1, Event.fin 1] = some s
      ∧ (∃ e ∈ s.results, e.office = "B" ∧ e.url = none ∧ e.available = true
          ∧ e.count = 1 ∧ e.samples = ["s"])
      ∧ (∀ e ∈ s.results, e.office ≠ "A") := by
  have hsome : (runIter discordOnlyCfg [("A", none), ("B", none)]
      [Outcome.err, Outcome.ok true ["s"]] 2 (StateStore.init 12) 0
      [Event.acq 0, Event.fin 0, Event.acq 1, Event.fin 1]).isSome = true := by
    decide
  have hcomp : (runIter discordOnlyCfg [("A", none), ("B", none)]
      [Outcome.err, Outcome.ok true ["s"]] 2 (StateStore.init 12) 0
      [Event.acq 0, Event.fin 0, Event.acq 1, Event.fin 1]).map
      (fun s => decide (complete [("A", none), ("B", none)] s)) = some true := by
    decide
  obtain ⟨s, hs⟩ := Option.isSome_iff_exists.mp hsome
  rw [hs] at hcomp
  have hcomp' : some (decide (complete [("A", none), ("B", none)] s)) = some true :=
    hcomp
  have hc : complete [("A", none), ("B", none)] s :=
    of_decide_eq_true (Option.some.inj hcomp')
  have hmain := (fault_isolation discordOnlyCfg [("A", none), ("B", none)]
    [Outcome.err, Outcome.ok true ["s"]] 2 (StateStore.init 12) 0
    0 1 "A" "B" none none true ["s"] rfl (by decide) rfl rfl rfl rfl
    [Event.acq 0, Event.fin 0, Event.acq 1, Event.fin 1] s hs).2 hc
  exact ⟨s, hs, hmain.1, hmain.2⟩

end NCVipDmv
